import Mathlib

/-! Verification of the `to-css-variables` library (src/src/index.ts): a shallow
embedding of `toCSSVariables`, `camelToKebabCase` and `flattenVariables`
over a model of JavaScript values, together with theorems settling the
claims of the specification about them.
-/

namespace ToCSSVars

/-- Model of the JavaScript values the library can encounter at runtime:
strings, numbers, booleans, `null`, arrays and plain objects.  An object is
modelled as its association list of enumerable own properties in `for ... in`
(insertion) order; JavaScript objects have pairwise distinct keys. -/
inductive JSVal where
  | str (s : String)
  | num (n : Int)
  | boolean (b : Bool)
  | null
  | arr (elems : List JSVal)
  | obj (fields : List (String × JSVal))
deriving Repr

/-- First pass of `camelToKebabCase` (`.replace(/\s+/g, "-")`): every maximal
run of whitespace becomes a single hyphen.  The flag records whether the
previous character was whitespace. -/
def collapseWsAux : Bool → List Char → List Char
  | _, [] => []
  | prevWs, c :: rest =>
    if c.isWhitespace then
      (if prevWs then [] else ['-']) ++ collapseWsAux true rest
    else c :: collapseWsAux false rest

/-- Second pass of `camelToKebabCase`
(`.replace(/(\d+)(?=[a-zA-Z])/g, "-$1")`): a hyphen is inserted before every
maximal digit run that is immediately followed by an ASCII letter.  The
regular expression has no start-of-string exclusion, so a leading digit run
is hyphenated as well.  `pending` buffers the digit run read so far. -/
def digitRunAux : List Char → List Char → List Char
  | pending, [] => pending
  | pending, c :: rest =>
    if c.isDigit then digitRunAux (pending ++ [c]) rest
    else if pending = [] then c :: digitRunAux [] rest
    else if c.isAlpha then '-' :: (pending ++ c :: digitRunAux [] rest)
    else pending ++ c :: digitRunAux [] rest

/-- Third pass of `camelToKebabCase`
(`.replace(/([a-z0-9])([A-Z])/g, "$1-$2")`): a hyphen is inserted between a
lowercase letter or digit and an immediately following uppercase letter. -/
def lowerUpperAux : List Char → List Char
  | [] => []
  | [c] => [c]
  | c1 :: c2 :: rest =>
    if (c1.isLower || c1.isDigit) && c2.isUpper then
      c1 :: '-' :: lowerUpperAux (c2 :: rest)
    else c1 :: lowerUpperAux (c2 :: rest)

/-- `camelToKebabCase` from src/src/index.ts lines 120-131: the three
substitution passes in sequence, then `.toLowerCase()`. -/
def camelToKebabCase (str : String) : String :=
  String.mk ((lowerUpperAux (digitRunAux [] (collapseWsAux false str.data))).map Char.toLower)

/-- Resolution of a string option by JavaScript operator `||`: an absent
(`undefined`) or empty (falsy) string falls back to the default. -/
def orDefaultStr (o : Option String) (d : String) : String :=
  match o with
  | none => d
  | some s => if s = "" then d else s

/-- The options object of `toCSSVariables`; `none` models an absent field
(or an entirely absent options argument). -/
structure BuilderOptions where
  pfx : Option String := none
  includeFallback : Option Bool := none
  rootKeys : Option (List String) := none

/-- The options object of `flattenVariables`. -/
structure FlattenOptions where
  separator : Option String := none
  pfx : Option String := none
  rootKeys : Option (List String) := none

/-- JavaScript property assignment `m[k] = v` on an object modelled as an
association list: an existing key keeps its position and gets the new value,
a new key is appended. -/
def jsAssign (m : List (String × String)) (k v : String) : List (String × String) :=
  if m.any (fun p => p.1 = k) then
    m.map (fun p => if p.1 = k then (k, v) else p)
  else m ++ [(k, v)]

/-- Lines 77-79 of src/src/index.ts: the full generated name of the entry
`key` under accumulated prefix `cur`:
`isRootKey ? currentPrefix : currentPrefix + (currentPrefix ? "-" : "") + kebabKey`. -/
def fullNameOf (rk : List String) (cur key : String) : String :=
  if key ∈ rk then cur
  else cur ++ (if cur = "" then "" else "-") ++ camelToKebabCase key

/-- Line 87 of src/src/index.ts: the prefix passed to the recursive call for
a subtree value: `currentPrefix ? fullKey : kebabKey`. -/
def childPfx (rk : List String) (cur key : String) : String :=
  if cur = "" then camelToKebabCase key else fullNameOf rk cur key

/-- The `var(--...)` reference expression written at a leaf
(line 82 of src/src/index.ts). -/
def varRef (fb : Bool) (name value : String) : String :=
  "var(--" ++ name ++ (if fb then ", " ++ value else "") ++ ")"

mutual

/-- Processing of one value of `toCSSVariables.processObject`
(lines 80-90 of src/src/index.ts): `fullKey` is the generated name of the
entry holding the value and `childCur` the prefix a recursive call would
receive.  Returns the declaration accumulator after the value and the value
stored into `parentObj` at the key of the entry.  A string leaf writes
`declaration["--" + fullKey]` and becomes a `var(--...)` reference; any other
value becomes a fresh object filled by recursing over its `for ... in`
entries (an array enumerates its indices; a number, boolean or `null`
enumerates nothing). -/
def processVal (rk : List String) (fb : Bool) :
    JSVal → String → String → List (String × String) →
    List (String × String) × JSVal
  | .str s, fullKey, _, decl =>
    (jsAssign decl ("--" ++ fullKey) s, .str (varRef fb fullKey s))
  | .obj fields, _, childCur, decl =>
    let r := processList rk fb fields childCur decl
    (r.1, .obj r.2)
  | .arr elems, _, childCur, decl =>
    let r := processElems rk fb 0 elems childCur decl
    (r.1, .obj r.2)
  | .num _, _, _, decl => (decl, .obj [])
  | .boolean _, _, _, decl => (decl, .obj [])
  | .null, _, _, decl => (decl, .obj [])

/-- The `for (const key in subObj)` loop of `toCSSVariables.processObject`
(lines 74-91 of src/src/index.ts) over the entries of an object. -/
def processList (rk : List String) (fb : Bool) :
    List (String × JSVal) → String → List (String × String) →
    List (String × String) × List (String × JSVal)
  | [], _, decl => (decl, [])
  | (k, v) :: rest, cur, decl =>
    let r1 := processVal rk fb v (fullNameOf rk cur k) (childPfx rk cur k) decl
    let r2 := processList rk fb rest cur r1.1
    (r2.1, (k, r1.2) :: r2.2)

/-- The same loop over an array value, whose `for ... in` keys are the
decimal indices `"0"`, `"1"`, ... -/
def processElems (rk : List String) (fb : Bool) :
    Nat → List JSVal → String → List (String × String) →
    List (String × String) × List (String × JSVal)
  | _, [], _, decl => (decl, [])
  | i, v :: rest, cur, decl =>
    let k := toString i
    let r1 := processVal rk fb v (fullNameOf rk cur k) (childPfx rk cur k) decl
    let r2 := processElems rk fb (i + 1) rest cur r1.1
    (r2.1, (k, r1.2) :: r2.2)

end

/-- The entries enumerated by `for (const key in x)` for a value `x`: an
object yields its own fields, an array its indexed elements, a string its
indexed characters (each a one-character string), and any other primitive
nothing. -/
def enumEntries : JSVal → List (String × JSVal)
  | .obj fields => fields
  | .arr elems => (elems.enum).map (fun p => (toString p.1, p.2))
  | .str s => (s.data.enum).map (fun p => (toString p.1, .str (String.mk [p.2])))
  | _ => []

/-- The fields of an object value (and `[]` for anything else). -/
def objFields : JSVal → List (String × JSVal)
  | .obj fields => fields
  | _ => []

/-- The malformed leaf values named by the error taxonomy of the specification:
a number, boolean, `null`, or array where a string or subtree is expected. -/
def isBadLeaf : JSVal → Bool
  | .num _ => true
  | .boolean _ => true
  | .null => true
  | .arr _ => true
  | _ => false

/-- A non-string primitive (number, boolean or `null`): a value whose
`for ... in` enumeration is empty. -/
def isPrimNonStr : JSVal → Bool
  | .num _ => true
  | .boolean _ => true
  | .null => true
  | _ => false

/-- The result record of `toCSSVariables`; the field called `variables` in
the source is named `vars` here because `variables` is reserved in Lean. -/
structure BuilderOutput where
  declaration : List (String × String)
  vars : JSVal
  raw : JSVal
deriving Repr

/-- `toCSSVariables` from src/src/index.ts lines 59-96: resolves the options
with `||` defaults, runs `processObject(obj, prefix, variables)` and returns
`{ declaration, variables, raw: obj }`. -/
def toCSSVariables (obj : JSVal) (options : BuilderOptions) : BuilderOutput :=
  let p0 := orDefaultStr options.pfx ""
  let fb := options.includeFallback.getD false
  let rk := options.rootKeys.getD []
  let r := processList rk fb (enumEntries obj) p0 []
  { declaration := r.1, vars := .obj r.2, raw := obj }

/-- The flat-key computation of `flattenVariables.processObject`
(lines 180-184 of src/src/index.ts): an empty accumulated prefix takes the
raw key (not canonicalized), a root key collapses onto the accumulated
prefix, otherwise the key is joined with the separator.  Folding it over
the path of keys from the root yields the flat key of a leaf. -/
def joinStep (sep : String) (rk : List String) (acc key : String) : String :=
  if acc = "" then key
  else if key ∈ rk then acc
  else acc ++ sep ++ key

mutual

/-- Processing of one value of `flattenVariables.processObject`
(lines 185-190 of src/src/index.ts), given the `fullKey` computed for its
entry.  A string value is assigned at `prefix + fullKey`; a non-null,
non-array object is recursed into with `fullKey` as the new prefix; numbers,
booleans, `null` and arrays are skipped. -/
def flattenVal (sep pfx : String) (rk : List String) :
    JSVal → String → List (String × String) → List (String × String)
  | .str s, fullKey, acc => jsAssign acc (pfx ++ fullKey) s
  | .obj fields, fullKey, acc => flattenList sep pfx rk fields fullKey acc
  | .arr _, _, acc => acc
  | .num _, _, acc => acc
  | .boolean _, _, acc => acc
  | .null, _, acc => acc

/-- The `for (const key in subObj)` loop of `flattenVariables.processObject`
(lines 176-192 of src/src/index.ts).  The `fullKey` computation of lines
180-184 (`currentPrefix ? (isRootKey ? currentPrefix : currentPrefix +
separator + key) : key`) is the factored-out `joinStep`. -/
def flattenList (sep pfx : String) (rk : List String) :
    List (String × JSVal) → String → List (String × String) →
    List (String × String)
  | [], _, acc => acc
  | (k, v) :: rest, cur, acc =>
    flattenList sep pfx rk rest cur (flattenVal sep pfx rk v (joinStep sep rk cur k) acc)

end

/-- `flattenVariables` from src/src/index.ts lines 167-196: resolves the
options with `||` defaults and runs `processObject(obj, "")`. -/
def flattenVariables (obj : JSVal) (options : FlattenOptions) : List (String × String) :=
  let sep := orDefaultStr options.separator "-"
  let pfx := orDefaultStr options.pfx ""
  let rk := options.rootKeys.getD []
  flattenList sep pfx rk (enumEntries obj) "" []

/-! Specification-side definitions

Path-indexed reformulations of the two traversals, used to state the
claims: a leaf is addressed by the list of keys from the root, its
generated name (resp. flat key) is computed from that path alone, and the
accumulator-threaded traversals are proved equal to a fold of JavaScript
assignments over the enumerated leaves. -/

/-- The generated name of the leaf reached by following a path of keys from
accumulated prefix `cur`: intermediate keys advance the prefix with
`childPfx`, the final key is resolved with `fullNameOf`. -/
def nameAt (rk : List String) : String → List String → String
  | cur, [] => cur
  | cur, [key] => fullNameOf rk cur key
  | cur, key :: p => nameAt rk (childPfx rk cur key) p

/-- The generated name of a leaf found at path `p` inside a value whose own
entry resolved to name `fullKey` and whose subtree prefix is `childCur`:
the value itself (`p = []`) has name `fullKey`, a proper descendant is
resolved from `childCur`. -/
def relNameAt (rk : List String) (fullKey childCur : String) : List String → String
  | [] => fullKey
  | key :: p => nameAt rk childCur (key :: p)

mutual

/-- Leaf enumeration for `toCSSVariables`, relative to a value: each string
leaf with the path of keys leading to it, in traversal order.  The builder
traverses every non-string value (an array through its indices; a number,
boolean or `null` has no entries). -/
def leafPathsVal : JSVal → List (List String × String)
  | .str s => [([], s)]
  | .obj fields => leafPathsList fields
  | .arr elems => leafPathsElems 0 elems
  | .num _ => []
  | .boolean _ => []
  | .null => []

/-- Leaf enumeration over the entries of an object. -/
def leafPathsList : List (String × JSVal) → List (List String × String)
  | [] => []
  | (k, v) :: rest =>
    (leafPathsVal v).map (fun q => (k :: q.1, q.2)) ++ leafPathsList rest

/-- Leaf enumeration over the elements of an array, indexed from `i`. -/
def leafPathsElems : Nat → List JSVal → List (List String × String)
  | _, [] => []
  | i, v :: rest =>
    (leafPathsVal v).map (fun q => (toString i :: q.1, q.2)) ++ leafPathsElems (i + 1) rest

end

mutual

/-- The reference tree (`variables`) produced for one value, given its
resolved entry name `fullKey` and subtree prefix `childCur`: a string
leaf becomes its `var(--...)` reference, everything else an object holding
the recursively rewritten entries. -/
def refVal (rk : List String) (fb : Bool) : JSVal → String → String → JSVal
  | .str s, fullKey, _ => .str (varRef fb fullKey s)
  | .obj fields, _, childCur => .obj (refList rk fb fields childCur)
  | .arr elems, _, childCur => .obj (refElems rk fb 0 elems childCur)
  | .num _, _, _ => .obj []
  | .boolean _, _, _ => .obj []
  | .null, _, _ => .obj []

/-- The reference tree for the entries of an object under prefix `cur`. -/
def refList (rk : List String) (fb : Bool) :
    List (String × JSVal) → String → List (String × JSVal)
  | [], _ => []
  | (k, v) :: rest, cur =>
    (k, refVal rk fb v (fullNameOf rk cur k) (childPfx rk cur k)) :: refList rk fb rest cur

/-- The reference tree for the elements of an array, indexed from `i`. -/
def refElems (rk : List String) (fb : Bool) :
    Nat → List JSVal → String → List (String × JSVal)
  | _, [], _ => []
  | i, v :: rest, cur =>
    (toString i, refVal rk fb v (fullNameOf rk cur (toString i)) (childPfx rk cur (toString i)))
      :: refElems rk fb (i + 1) rest cur

end

/-- The nesting structure of a value: keys and depth, with leaves erased. -/
inductive Shape where
  | leaf
  | node (children : List (String × Shape))

mutual

/-- The shape of a value: a string is a leaf, an object a node over the
shapes of its fields; other values (excluded by `isStringTreeV`) count as
leaves. -/
def shapeVal : JSVal → Shape
  | .str _ => .leaf
  | .obj fields => .node (shapeFields fields)
  | .arr _ => .leaf
  | .num _ => .leaf
  | .boolean _ => .leaf
  | .null => .leaf

/-- The shapes of the fields of an object. -/
def shapeFields : List (String × JSVal) → List (String × Shape)
  | [] => []
  | (k, v) :: rest => (k, shapeVal v) :: shapeFields rest

end

mutual

/-- The value is a tree of string leaves and nested plain objects
(the `NestedStringTree` data model of the specification). -/
def isStringTreeV : JSVal → Bool
  | .str _ => true
  | .obj fields => isStringTreeFields fields
  | _ => false

/-- All values of the fields are string trees. -/
def isStringTreeFields : List (String × JSVal) → Bool
  | [] => true
  | (_, v) :: rest => isStringTreeV v && isStringTreeFields rest

end

mutual

/-- `PathLeafV v p s`: following the keys in `p` from the value `v` through
object fields and array elements (indexed by their decimal position) reaches
the string leaf `s`. -/
inductive PathLeafV : JSVal → List String → String → Prop where
  | obj {fields p s} : PathLeafL fields p s → PathLeafV (.obj fields) p s
  | arr {elems p s} : PathLeafE 0 elems p s → PathLeafV (.arr elems) p s

/-- Path-to-leaf relation for the entries of an object. -/
inductive PathLeafL : List (String × JSVal) → List String → String → Prop where
  | here {k s rest} : PathLeafL ((k, .str s) :: rest) [k] s
  | sub {k v rest p s} : PathLeafV v p s → PathLeafL ((k, v) :: rest) (k :: p) s
  | there {k v rest p s} : PathLeafL rest p s → PathLeafL ((k, v) :: rest) p s

/-- Path-to-leaf relation for the elements of an array, indexed from `i`. -/
inductive PathLeafE : Nat → List JSVal → List String → String → Prop where
  | hereE {i s rest} : PathLeafE i (.str s :: rest) [toString i] s
  | subE {i v rest p s} : PathLeafV v p s → PathLeafE i (v :: rest) (toString i :: p) s
  | thereE {i v rest p s} : PathLeafE (i + 1) rest p s → PathLeafE i (v :: rest) p s

end

mutual

/-- Leaf enumeration for `flattenVariables`, relative to a value: only
plain objects are traversed, so string leaves under arrays (or any other
non-object value) are not enumerated. -/
def flatLeafPathsVal : JSVal → List (List String × String)
  | .str s => [([], s)]
  | .obj fields => flatLeafPathsList fields
  | .arr _ => []
  | .num _ => []
  | .boolean _ => []
  | .null => []

/-- Flattener leaf enumeration over the entries of an object. -/
def flatLeafPathsList : List (String × JSVal) → List (List String × String)
  | [] => []
  | (k, v) :: rest =>
    (flatLeafPathsVal v).map (fun q => (k :: q.1, q.2)) ++ flatLeafPathsList rest

end

/-! Refinement lemmas -/

theorem nameAt_cons (rk : List String) (cur k : String) (p : List String) :
    nameAt rk cur (k :: p) = relNameAt rk (fullNameOf rk cur k) (childPfx rk cur k) p := by
  cases p <;> simp [nameAt, relNameAt]

theorem leafPathsList_ne_nil :
    ∀ (fields : List (String × JSVal)) (q : List String × String),
      q ∈ leafPathsList fields → q.1 ≠ []
  | [], q, h => by simp [leafPathsList] at h
  | (k, v) :: rest, q, h => by
      simp only [leafPathsList, List.mem_append, List.mem_map] at h
      rcases h with ⟨a, _, rfl⟩ | h
      · simp
      · exact leafPathsList_ne_nil rest q h

theorem leafPathsElems_ne_nil :
    ∀ (i : Nat) (elems : List JSVal) (q : List String × String),
      q ∈ leafPathsElems i elems → q.1 ≠ []
  | _, [], q, h => by simp [leafPathsElems] at h
  | i, v :: rest, q, h => by
      simp only [leafPathsElems, List.mem_append, List.mem_map] at h
      rcases h with ⟨a, _, rfl⟩ | h
      · simp
      · exact leafPathsElems_ne_nil (i + 1) rest q h

mutual

/-- `processObject` on one value: the declaration accumulator receives one
JavaScript assignment `"--" + name ↦ value` per string leaf, in traversal
order, and the produced subtree is the reference tree of the value. -/
theorem processVal_spec (rk : List String) (fb : Bool) :
    ∀ (v : JSVal) (fullKey childCur : String) (decl : List (String × String)),
    processVal rk fb v fullKey childCur decl
      = ((leafPathsVal v).foldl
          (fun m q => jsAssign m ("--" ++ relNameAt rk fullKey childCur q.1) q.2) decl,
         refVal rk fb v fullKey childCur)
  | .str s, fullKey, childCur, decl => by
      simp [processVal, leafPathsVal, refVal, relNameAt]
  | .obj fields, fullKey, childCur, decl => by
      simp only [processVal, leafPathsVal, refVal,
        processList_spec rk fb fields childCur decl]
      congr 1
      refine List.foldl_ext _ _ decl fun m q hq => ?_
      have hne := leafPathsList_ne_nil fields q hq
      obtain ⟨p, s⟩ := q
      cases p with
      | nil => simp at hne
      | cons a as => simp [relNameAt]
  | .arr elems, fullKey, childCur, decl => by
      simp only [processVal, leafPathsVal, refVal,
        processElems_spec rk fb 0 elems childCur decl]
      congr 1
      refine List.foldl_ext _ _ decl fun m q hq => ?_
      have hne := leafPathsElems_ne_nil 0 elems q hq
      obtain ⟨p, s⟩ := q
      cases p with
      | nil => simp at hne
      | cons a as => simp [relNameAt]
  | .num n, fullKey, childCur, decl => by
      simp [processVal, leafPathsVal, refVal]
  | .boolean b, fullKey, childCur, decl => by
      simp [processVal, leafPathsVal, refVal]
  | .null, fullKey, childCur, decl => by
      simp [processVal, leafPathsVal, refVal]

/-- `processObject` over the entries of an object: the declaration is
extended by one assignment per string leaf, keyed `"--" + name-of-the-path`, and the mirrored entries are the reference tree. -/
theorem processList_spec (rk : List String) (fb : Bool) :
    ∀ (fields : List (String × JSVal)) (cur : String) (decl : List (String × String)),
    processList rk fb fields cur decl
      = ((leafPathsList fields).foldl
          (fun m q => jsAssign m ("--" ++ nameAt rk cur q.1) q.2) decl,
         refList rk fb fields cur)
  | [], cur, decl => by simp [processList, leafPathsList, refList]
  | (k, v) :: rest, cur, decl => by
      have hv := processVal_spec rk fb v (fullNameOf rk cur k) (childPfx rk cur k) decl
      simp only [processList, leafPathsList, refList, hv,
        processList_spec rk fb rest cur]
      rw [List.foldl_append, List.foldl_map]
      simp only [nameAt_cons]

/-- `processObject` over the elements of an array (keys are the decimal
indices). -/
theorem processElems_spec (rk : List String) (fb : Bool) :
    ∀ (i : Nat) (elems : List JSVal) (cur : String) (decl : List (String × String)),
    processElems rk fb i elems cur decl
      = ((leafPathsElems i elems).foldl
          (fun m q => jsAssign m ("--" ++ nameAt rk cur q.1) q.2) decl,
         refElems rk fb i elems cur)
  | _, [], cur, decl => by simp [processElems, leafPathsElems, refElems]
  | i, v :: rest, cur, decl => by
      have hv := processVal_spec rk fb v (fullNameOf rk cur (toString i))
        (childPfx rk cur (toString i)) decl
      simp only [processElems, leafPathsElems, refElems, hv,
        processElems_spec rk fb (i + 1) rest cur]
      rw [List.foldl_append, List.foldl_map]
      simp only [nameAt_cons]

end

mutual

/-- `flattenVariables.processObject` on one value: one assignment
`prefix + flatKey ↦ value` per string leaf reachable through plain
objects, in traversal order. -/
theorem flattenVal_spec (sep pfx : String) (rk : List String) :
    ∀ (v : JSVal) (fullKey : String) (acc : List (String × String)),
    flattenVal sep pfx rk v fullKey acc
      = (flatLeafPathsVal v).foldl
          (fun m q => jsAssign m (pfx ++ q.1.foldl (joinStep sep rk) fullKey) q.2) acc
  | .str s, fullKey, acc => by simp [flattenVal, flatLeafPathsVal]
  | .obj fields, fullKey, acc => by
      simp only [flattenVal, flatLeafPathsVal]
      exact flattenList_spec sep pfx rk fields fullKey acc
  | .arr _, fullKey, acc => by simp [flattenVal, flatLeafPathsVal]
  | .num _, fullKey, acc => by simp [flattenVal, flatLeafPathsVal]
  | .boolean _, fullKey, acc => by simp [flattenVal, flatLeafPathsVal]
  | .null, fullKey, acc => by simp [flattenVal, flatLeafPathsVal]

/-- `flattenVariables.processObject` over the entries of an object. -/
theorem flattenList_spec (sep pfx : String) (rk : List String) :
    ∀ (fields : List (String × JSVal)) (cur : String) (acc : List (String × String)),
    flattenList sep pfx rk fields cur acc
      = (flatLeafPathsList fields).foldl
          (fun m q => jsAssign m (pfx ++ q.1.foldl (joinStep sep rk) cur) q.2) acc
  | [], cur, acc => by simp [flattenList, flatLeafPathsList]
  | (k, v) :: rest, cur, acc => by
      have hv := flattenVal_spec sep pfx rk v (joinStep sep rk cur k) acc
      simp only [flattenList, flatLeafPathsList, hv,
        flattenList_spec sep pfx rk rest cur]
      rw [List.foldl_append, List.foldl_map]
      simp only [List.foldl_cons]

end

mutual

theorem pathLeafV_ne_nil : ∀ {v : JSVal} {p : List String} {s : String},
    PathLeafV v p s → p ≠ []
  | _, _, _, .obj h => pathLeafL_ne_nil h
  | _, _, _, .arr h => pathLeafE_ne_nil h

theorem pathLeafL_ne_nil : ∀ {l : List (String × JSVal)} {p : List String} {s : String},
    PathLeafL l p s → p ≠ []
  | _, _, _, .here => by simp
  | _, _, _, .sub _ => by simp
  | _, _, _, .there h => pathLeafL_ne_nil h

theorem pathLeafE_ne_nil : ∀ {i : Nat} {l : List JSVal} {p : List String} {s : String},
    PathLeafE i l p s → p ≠ []
  | _, _, _, _, .hereE => by simp
  | _, _, _, _, .subE _ => by simp
  | _, _, _, _, .thereE h => pathLeafE_ne_nil h

end

mutual

/-- A leaf of the input at path `p` reappears in the reference tree of the
value at the same path, holding the `var(--...)` reference built from the
name of that path. -/
theorem pathLeafV_ref (rk : List String) (fb : Bool) :
    ∀ {v : JSVal} {p : List String} {s : String} (fullKey childCur : String),
    PathLeafV v p s →
      PathLeafV (refVal rk fb v fullKey childCur) p
        (varRef fb (relNameAt rk fullKey childCur p) s)
  | _, p, _, fullKey, childCur, .obj h => by
      cases p with
      | nil => exact absurd rfl (pathLeafL_ne_nil h)
      | cons a as =>
          exact PathLeafV.obj (pathLeafL_ref rk fb childCur h)
  | _, p, _, fullKey, childCur, .arr h => by
      cases p with
      | nil => exact absurd rfl (pathLeafE_ne_nil h)
      | cons a as =>
          exact PathLeafV.obj (pathLeafE_ref rk fb childCur h)

/-- Leaf transport through `refList`. -/
theorem pathLeafL_ref (rk : List String) (fb : Bool) :
    ∀ {fields : List (String × JSVal)} {p : List String} {s : String} (cur : String),
    PathLeafL fields p s →
      PathLeafL (refList rk fb fields cur) p (varRef fb (nameAt rk cur p) s)
  | _, _, _, cur, .here => PathLeafL.here
  | _, _, _, cur, .sub h => by
      rw [nameAt_cons]
      exact PathLeafL.sub
        (pathLeafV_ref rk fb (fullNameOf rk cur _) (childPfx rk cur _) h)
  | _, _, _, cur, .there h => PathLeafL.there (pathLeafL_ref rk fb cur h)

/-- Leaf transport through `refElems`. -/
theorem pathLeafE_ref (rk : List String) (fb : Bool) :
    ∀ {i : Nat} {elems : List JSVal} {p : List String} {s : String} (cur : String),
    PathLeafE i elems p s →
      PathLeafL (refElems rk fb i elems cur) p (varRef fb (nameAt rk cur p) s)
  | _, _, _, _, cur, .hereE => PathLeafL.here
  | _, _, _, _, cur, .subE h => by
      rw [nameAt_cons]
      exact PathLeafL.sub
        (pathLeafV_ref rk fb (fullNameOf rk cur _) (childPfx rk cur _) h)
  | _, _, _, _, cur, .thereE h => PathLeafL.there (pathLeafE_ref rk fb cur h)

end

mutual

/-- On a string tree, the reference tree of a value has the same shape as
the value. -/
theorem shapeVal_ref (rk : List String) (fb : Bool) :
    ∀ {v : JSVal} (fullKey childCur : String), isStringTreeV v = true →
      shapeVal (refVal rk fb v fullKey childCur) = shapeVal v
  | .str _, fullKey, childCur, _ => by simp [refVal, shapeVal]
  | .obj fields, fullKey, childCur, h => by
      have hf : isStringTreeFields fields = true := by
        simpa [isStringTreeV] using h
      simp [refVal, shapeVal, shapeFields_ref rk fb childCur hf]
  | .arr _, fullKey, childCur, h => by simp [isStringTreeV] at h
  | .num _, fullKey, childCur, h => by simp [isStringTreeV] at h
  | .boolean _, fullKey, childCur, h => by simp [isStringTreeV] at h
  | .null, fullKey, childCur, h => by simp [isStringTreeV] at h

/-- On string-tree fields, `refList` preserves the shape. -/
theorem shapeFields_ref (rk : List String) (fb : Bool) :
    ∀ {fields : List (String × JSVal)} (cur : String), isStringTreeFields fields = true →
      shapeFields (refList rk fb fields cur) = shapeFields fields
  | [], cur, _ => by simp [refList, shapeFields]
  | (k, v) :: rest, cur, h => by
      have hv : isStringTreeV v = true ∧ isStringTreeFields rest = true := by
        simpa [isStringTreeFields, Bool.and_eq_true] using h
      simp [refList, shapeFields,
        shapeVal_ref rk fb (fullNameOf rk cur k) (childPfx rk cur k) hv.1,
        shapeFields_ref rk fb cur hv.2]

end

/-- A JavaScript assignment makes its key present. -/
theorem jsAssign_key_self (m : List (String × String)) (k v : String) :
    k ∈ (jsAssign m k v).map Prod.fst := by
  simp only [jsAssign]
  split
  · next hc =>
      rcases List.any_eq_true.mp hc with ⟨p, hp, hpk⟩
      have hpk2 : p.1 = k := by simpa using hpk
      refine List.mem_map.mpr ⟨(k, v), ?_, rfl⟩
      refine List.mem_map.mpr ⟨p, hp, ?_⟩
      simp [hpk2]
  · simp

/-- A JavaScript assignment keeps every present key present. -/
theorem jsAssign_key_mono (m : List (String × String)) (k v a : String)
    (h : a ∈ m.map Prod.fst) : a ∈ (jsAssign m k v).map Prod.fst := by
  simp only [jsAssign]
  split
  · rw [List.map_map]
    have he : ∀ p ∈ m,
        (Prod.fst ∘ fun p : String × String => if p.1 = k then (k, v) else p) p = p.1 := by
      intro p _
      by_cases hpk : p.1 = k
      · simp [hpk]
      · simp [hpk]
    rw [List.map_congr_left he]
    exact h
  · simp only [List.map_append, List.mem_append]
    exact Or.inl h

/-- Keys present before a fold of JavaScript assignments stay present. -/
theorem foldl_jsAssign_key_mono {β : Type} (f g : β → String) :
    ∀ (l : List β) (m : List (String × String)) (a : String),
      a ∈ m.map Prod.fst →
      a ∈ (l.foldl (fun acc q => jsAssign acc (f q) (g q)) m).map Prod.fst
  | [], _, _, h => h
  | q :: rest, m, a, h => by
      simp only [List.foldl_cons]
      exact foldl_jsAssign_key_mono f g rest _ a (jsAssign_key_mono _ _ _ _ h)

/-- After folding JavaScript assignments over a list, the key of every list
element is present. -/
theorem foldl_jsAssign_key_mem {β : Type} (f g : β → String) :
    ∀ (l : List β) (m : List (String × String)) (q : β), q ∈ l →
      f q ∈ (l.foldl (fun acc q => jsAssign acc (f q) (g q)) m).map Prod.fst
  | [], _, q, h => absurd h (List.not_mem_nil q)
  | q0 :: rest, m, q, h => by
      simp only [List.foldl_cons]
      rcases List.mem_cons.mp h with rfl | h2
      · exact foldl_jsAssign_key_mono f g rest _ _ (jsAssign_key_self m (f q) (g q))
      · exact foldl_jsAssign_key_mem f g rest _ q h2

/-- A string leaf among the entries of an object reappears in `refList` as the
corresponding `var(--...)` reference under the same key. -/
theorem refList_mem (rk : List String) (fb : Bool) :
    ∀ {fields : List (String × JSVal)} (cur k v : String), (k, JSVal.str v) ∈ fields →
      (k, JSVal.str (varRef fb (fullNameOf rk cur k) v)) ∈ refList rk fb fields cur
  | [], _, _, _, h => absurd h (List.not_mem_nil _)
  | (k2, v2) :: rest, cur, k, v, h => by
      rcases List.mem_cons.mp h with heq | h2
      · cases heq
        exact List.mem_cons.mpr (Or.inl rfl)
      · exact List.mem_cons.mpr (Or.inr (refList_mem rk fb cur k v h2))

/-- A string leaf among the entries of an object is enumerated by
`leafPathsList` under the singleton path of its key. -/
theorem leafPathsList_mem :
    ∀ {fields : List (String × JSVal)} (k v : String), (k, JSVal.str v) ∈ fields →
      (([k], v) : List String × String) ∈ leafPathsList fields
  | [], _, _, h => absurd h (List.not_mem_nil _)
  | (k2, v2) :: rest, k, v, h => by
      simp only [leafPathsList, List.mem_append]
      rcases List.mem_cons.mp h with heq | h2
      · cases heq
        exact Or.inl (by simp [leafPathsVal])
      · exact Or.inr (leafPathsList_mem k v h2)

/-- The reference expression of a leaf whose generated name is empty. -/
theorem varRef_empty (fbv : Bool) (v : String) :
    varRef fbv "" v = if fbv then "var(--, " ++ v ++ ")" else "var(--)" := by
  cases fbv <;> rfl

/-! Claim theorems -/

/-- C1, counterexample.  The claim states that the declaration maps the
bare generated name `n` (no leading `--`) to the leaf value.  At input
`{ a: "x" }` the generated name is `"a"` and the `variables` leaf reads
`var(--a)`, but the only declaration key is `"--a"` (line 81 of
src/src/index.ts writes `declaration["--" + fullKey]`): the bare name `"a"`
is not a declaration key. -/
theorem c1_bare_declaration_key_counterexample :
    (toCSSVariables (.obj [("a", .str "x")]) {}).declaration = [("--a", "x")]
    ∧ (toCSSVariables (.obj [("a", .str "x")]) {}).vars = .obj [("a", .str "var(--a)")]
    ∧ "a" ∉ ((toCSSVariables (.obj [("a", .str "x")]) {}).declaration).map Prod.fst := by
  refine ⟨rfl, rfl, ?_⟩
  decide

/-- C1 (amended).  Declaration/reference consistency: the declaration
is exactly the fold, in traversal order, of the JavaScript assignments
`"--" ++ n ↦ v` over the string leaves of the input, where `n` is the
generated name of the path of the leaf (later leaves overwrite earlier ones with
the same name); and every leaf at path `p` with value `v` reappears in
`variables` at the same path as `"var(--" ++ n ++ ")"`, or
`"var(--" ++ n ++ ", " ++ v ++ ")"` when `includeFallback` is true, with
the same name `n`.  Hence the declaration key is `"--"` followed by exactly
the name referenced inside the `var()` expression of that leaf. -/
theorem c1_declaration_reference_consistency (obj : JSVal) (opts : BuilderOptions) :
    (toCSSVariables obj opts).declaration
      = (leafPathsList (enumEntries obj)).foldl
          (fun m q =>
            jsAssign m
              ("--" ++ nameAt (opts.rootKeys.getD []) (orDefaultStr opts.pfx "") q.1)
              q.2) []
    ∧ ∀ (p : List String) (v : String), PathLeafL (enumEntries obj) p v →
        PathLeafL (objFields (toCSSVariables obj opts).vars) p
          (varRef (opts.includeFallback.getD false)
            (nameAt (opts.rootKeys.getD []) (orDefaultStr opts.pfx "") p) v) := by
  constructor
  · simp [toCSSVariables, processList_spec]
  · intro p v h
    have hv : objFields (toCSSVariables obj opts).vars
        = refList (opts.rootKeys.getD []) (opts.includeFallback.getD false)
            (enumEntries obj) (orDefaultStr opts.pfx "") := by
      simp [toCSSVariables, objFields, processList_spec]
    rw [hv]
    exact pathLeafL_ref _ _ _ h

/-- C1 witness. -/
theorem c1_declaration_reference_consistency_witness :
    PathLeafL (enumEntries (.obj [("a", .str "x")])) ["a"] "x"
    ∧ PathLeafL (objFields (toCSSVariables (.obj [("a", .str "x")]) {}).vars) ["a"]
        (varRef false (nameAt [] "" ["a"]) "x") :=
  ⟨PathLeafL.here,
   (c1_declaration_reference_consistency (.obj [("a", .str "x")]) {}).2 ["a"] "x"
     PathLeafL.here⟩

/-- C2.  Shape preservation: on a string-leaf tree, `variables` has
exactly the same keys and nesting structure as the input at every depth,
and the input is returned unchanged as `raw`. -/
theorem c2_shape_preservation (fields : List (String × JSVal)) (opts : BuilderOptions)
    (h : isStringTreeFields fields = true) :
    shapeVal (toCSSVariables (.obj fields) opts).vars = shapeVal (.obj fields)
    ∧ (toCSSVariables (.obj fields) opts).raw = .obj fields := by
  refine ⟨?_, rfl⟩
  have hv : (toCSSVariables (.obj fields) opts).vars
      = .obj (refList (opts.rootKeys.getD []) (opts.includeFallback.getD false)
          fields (orDefaultStr opts.pfx "")) := by
    simp [toCSSVariables, processList_spec, enumEntries]
  rw [hv]
  simp [shapeVal, shapeFields_ref _ _ (orDefaultStr opts.pfx "") h]

/-- C2 witness. -/
theorem c2_shape_preservation_witness :
    isStringTreeFields [("a", JSVal.obj [("b", JSVal.str "x")]), ("c", JSVal.str "y")] = true
    ∧ shapeVal (toCSSVariables
        (.obj [("a", .obj [("b", .str "x")]), ("c", .str "y")]) {}).vars
      = shapeVal (.obj [("a", .obj [("b", .str "x")]), ("c", .str "y")]) :=
  ⟨by decide, (c2_shape_preservation _ {} (by decide)).1⟩

/-- C3 (code bug).  The claim, like the comment in the source itself
("Inserting a hyphen before numeric parts, but not if the number is at the
start of the string", lines 125-126 of src/src/index.ts) — says a digit run
that starts the string is never hyphen-prefixed.  But the regular
expression `/(\d+)(?=[a-zA-Z])/g` has no start-of-string exclusion, so
`"2fast"` becomes `"-2fast"`, not `"2fast"`. -/
theorem c3_leading_digit_run_is_hyphenated :
    camelToKebabCase "2fast" = "-2fast" := by decide

/-- C4, counterexample.  The claim states that a malformed value
(number, boolean, null, array) aborts the whole call with an error and is
never silently skipped.  In fact both functions are total and never raise:
at `{ a: 1, b: "x" }`, `flattenVariables` silently skips the number and
returns the completed map for the remaining leaves, and `toCSSVariables`
turns the number into an empty subtree and returns a fully built result. -/
theorem c4_no_error_counterexample :
    flattenVariables (.obj [("a", .num 1), ("b", .str "x")]) {} = [("b", "x")]
    ∧ toCSSVariables (.obj [("a", .num 1), ("b", .str "x")]) {}
        = { declaration := [("--b", "x")],
            vars := .obj [("a", .obj []), ("b", .str "var(--b)")],
            raw := .obj [("a", .num 1), ("b", .str "x")] } :=
  ⟨by decide, by rfl⟩

/-- C4 (amended).  No error is raised for malformed values:
`flattenVariables` silently skips any entry whose value is a number,
boolean, `null` or array (it contributes no output entries), and
`toCSSVariables` silently turns a number, boolean or `null` into an empty
subtree (`{}`) in `variables` without touching the declaration; both calls
complete and return fully built structures. -/
theorem c4_malformed_values_skipped (sep pfx cur curB : String)
    (rkF rkB : List String) (fb : Bool) (k : String) (v : JSVal)
    (rest : List (String × JSVal)) (acc decl : List (String × String))
    (h : isBadLeaf v = true) :
    flattenList sep pfx rkF ((k, v) :: rest) cur acc
      = flattenList sep pfx rkF rest cur acc
    ∧ (isPrimNonStr v = true →
        processList rkB fb ((k, v) :: rest) curB decl
          = ((processList rkB fb rest curB decl).1,
             (k, .obj []) :: (processList rkB fb rest curB decl).2)) := by
  constructor
  · cases v <;> simp_all [isBadLeaf, flattenList, flattenVal]
  · intro h2
    cases v <;> simp_all [isPrimNonStr, processList, processVal]

/-- C4 witness. -/
theorem c4_malformed_values_skipped_witness :
    flattenList "-" "" [] [("a", .num 1)] "" [] = flattenList "-" "" [] [] "" []
    ∧ processList [] false [("a", .num 1)] "" []
        = ((processList [] false [] "" []).1,
           ("a", JSVal.obj []) :: (processList [] false [] "" []).2) := by
  have h := c4_malformed_values_skipped "-" "" "" "" [] [] false "a" (.num 1) [] [] []
    (by decide)
  exact ⟨h.1, h.2 (by decide)⟩

/-- C5, counterexample.  The claim states that every string leaf
reachable through non-array subtrees gets exactly one entry keyed by its
joined path.  But key collisions are resolved last-write-wins: at
`{ a: { b: "1" }, "a-b": "2" }` both leaves flatten to the key `"a-b"`,
the later leaf overwrites the earlier, and the leaf `"1"` ends up with no
entry at all. -/
theorem c5_collision_counterexample :
    flattenVariables (.obj [("a", .obj [("b", .str "1")]), ("a-b", .str "2")]) {}
      = [("a-b", "2")]
    ∧ "1" ∉ (flattenVariables
        (.obj [("a", .obj [("b", .str "1")]), ("a-b", .str "2")]) {}).map Prod.snd :=
  ⟨by decide, by decide⟩

/-- C5 (amended).  Flattener correctness: `flattenVariables` is exactly
the fold, in depth-first traversal order, of the JavaScript assignments
`prefix ++ flatKey ↦ v` over the string leaves reachable through plain
(non-array) subtrees, where `flatKey` folds `joinStep` over the path from
the root (empty prefix takes the raw, uncanonicalized key; root keys
collapse onto the accumulated prefix; otherwise the separator joins), with
`config.prefix` prepended once at emission; a leaf whose key collides with
a later-traversed leaf is overwritten (last-write-wins), and array-valued
nodes contribute no entries.  In particular the example of the claim holds. -/
theorem c5_flattener_correctness (obj : JSVal) (opts : FlattenOptions) :
    flattenVariables obj opts
      = (flatLeafPathsList (enumEntries obj)).foldl
          (fun m q =>
            jsAssign m
              (orDefaultStr opts.pfx ""
                ++ q.1.foldl
                    (joinStep (orDefaultStr opts.separator "-") (opts.rootKeys.getD []))
                    "")
              q.2) []
    ∧ flattenVariables
        (.obj [("text", .obj [("DEFAULT", .str "#111"), ("muted", .str "#333")])])
        { rootKeys := some ["DEFAULT"] }
      = [("text", "#111"), ("text-muted", "#333")] := by
  constructor
  · simp [flattenVariables, flattenList_spec]
  · decide

/-- C6.  Root-key collapsing: a key in `config.rootKeys` generates the
current accumulated prefix verbatim, contributing no segment of its own;
in particular `{ a: { DEFAULT: "x" } }` with `rootKeys = ["DEFAULT"]` and
empty prefix generates the name `"a"` (declaration key `"--a"`, reference
`var(--a)`), not `"a-default"`. -/
theorem c6_root_key_collapsing (rk : List String) (cur key : String) (h : key ∈ rk) :
    fullNameOf rk cur key = cur
    ∧ (toCSSVariables (.obj [("a", .obj [("DEFAULT", .str "x")])])
        { rootKeys := some ["DEFAULT"] }).declaration = [("--a", "x")]
    ∧ (toCSSVariables (.obj [("a", .obj [("DEFAULT", .str "x")])])
        { rootKeys := some ["DEFAULT"] }).vars
      = .obj [("a", .obj [("DEFAULT", .str "var(--a)")])] := by
  refine ⟨?_, rfl, rfl⟩
  simp [fullNameOf, h]

/-- C6 witness. -/
theorem c6_root_key_collapsing_witness :
    fullNameOf ["DEFAULT"] "a" "DEFAULT" = "a" :=
  (c6_root_key_collapsing ["DEFAULT"] "a" "DEFAULT" (by decide)).1

/-- C7.  Raw identity: `toCSSVariables` returns the input tree itself
as the `raw` field of its result; the embedding is pure, so the input is
never mutated. -/
theorem c7_raw_identity (obj : JSVal) (opts : BuilderOptions) :
    (toCSSVariables obj opts).raw = obj := rfl

/-- C8.  Casing determinism on the reference inputs: boundaries are
inserted only where a lowercase letter or digit precedes an uppercase
letter, so acronym runs are not split internally. -/
theorem c8_casing_determinism :
    camelToKebabCase "borderColor" = "border-color"
    ∧ camelToKebabCase "step2Go" = "step-2-go"
    ∧ camelToKebabCase "xmlParser" = "xml-parser"
    ∧ camelToKebabCase "XMLParser" = "xmlparser" :=
  ⟨by decide, by decide, by decide, by decide⟩

/-- C9.  Empty-name edge case: a top-level root key with a string value
under the default empty prefix generates the empty name, so the declaration
gains the degenerate key `"--"` and the `variables` leaf for that key is
`"var(--)"` (or `"var(--, " ++ v ++ ")"` with `includeFallback`). -/
theorem c9_empty_name_edge_case (fields : List (String × JSVal)) (k v : String)
    (fb : Option Bool) (rk : List String) (hk : k ∈ rk)
    (hm : (k, JSVal.str v) ∈ fields) :
    "--" ∈ ((toCSSVariables (.obj fields)
        { pfx := none, includeFallback := fb, rootKeys := some rk }).declaration).map
          Prod.fst
    ∧ (k, JSVal.str (if fb.getD false then "var(--, " ++ v ++ ")" else "var(--)"))
        ∈ objFields (toCSSVariables (.obj fields)
            { pfx := none, includeFallback := fb, rootKeys := some rk }).vars := by
  have hname : fullNameOf rk "" k = "" := by simp [fullNameOf, hk]
  constructor
  · have hd : (toCSSVariables (.obj fields)
        { pfx := none, includeFallback := fb, rootKeys := some rk }).declaration
        = (leafPathsList fields).foldl
            (fun m q => jsAssign m ("--" ++ nameAt rk "" q.1) q.2) [] := by
      simp [toCSSVariables, processList_spec, enumEntries, orDefaultStr]
    rw [hd]
    have hq := foldl_jsAssign_key_mem
      (fun q : List String × String => "--" ++ nameAt rk "" q.1) (fun q => q.2)
      (leafPathsList fields) [] ([k], v) (leafPathsList_mem k v hm)
    simpa [nameAt, hname] using hq
  · have hv : objFields (toCSSVariables (.obj fields)
        { pfx := none, includeFallback := fb, rootKeys := some rk }).vars
        = refList rk (fb.getD false) fields "" := by
      simp [toCSSVariables, objFields, processList_spec, enumEntries, orDefaultStr]
    rw [hv]
    have hmem := refList_mem rk (fb.getD false) "" k v hm
    rw [hname, varRef_empty] at hmem
    exact hmem

/-- C9 witness. -/
theorem c9_empty_name_edge_case_witness :
    "--" ∈ ((toCSSVariables (.obj [("DEFAULT", .str "x")])
        { pfx := none, includeFallback := some true,
          rootKeys := some ["DEFAULT"] }).declaration).map Prod.fst
    ∧ ("DEFAULT", JSVal.str "var(--, x)")
        ∈ objFields (toCSSVariables (.obj [("DEFAULT", .str "x")])
            { pfx := none, includeFallback := some true,
              rootKeys := some ["DEFAULT"] }).vars := by
  have h := c9_empty_name_edge_case [("DEFAULT", .str "x")] "DEFAULT" "x" (some true)
    ["DEFAULT"] (by decide) (List.mem_cons_self _ _)
  exact ⟨h.1, h.2⟩

/-- C10.  The empty separator is unusable: `options?.separator || "-"`
treats the empty string as falsy, so `separator: ""` resolves to `"-"` and
`flattenVariables` returns exactly the same map as with `separator: "-"`,
for every input tree and any other options. -/
theorem c10_empty_separator_unusable (obj : JSVal) (p : Option String)
    (rkO : Option (List String)) :
    flattenVariables obj { separator := some "", pfx := p, rootKeys := rkO }
      = flattenVariables obj { separator := some "-", pfx := p, rootKeys := rkO } := by
  simp [flattenVariables, orDefaultStr]

end ToCSSVars
